import Mathlib

/-!
A shallow embedding of the Blokus rules engine (`blokus.py`, `piece.py`) and
proofs about its specification claims.

Conventions of the embedding:
* `Point` is an integer `(row, column)` pair, as in `piece.py`.
* Python sets (`start_positions`, `retired_players`) are modelled as `Finset`s;
  every use in the engine (membership, size, validation) is order-insensitive.
* Python in-place mutation is modelled by state-passing: every mutating method
  returns the updated `Blokus` state.
* Python `raise ValueError` is modelled with `Except BlokusErr`; the two
  distinct raise sites of `legal_to_place` get the two distinct constructors
  the design document names (`AlreadyPlayedShape`, `NoAnchorSet`).
-/

/-- A point is a `(row, column)` pair of integers (`piece.py`). -/
abbrev Point := Int × Int

/-- Modelled from the spec: `shape_definitions.py` is not under `src/`.  The 21
fixed shape-kind identifiers (the canonical polyomino names, including the
single-square kind `ONE` and the five-square straight kind `FIVE` that the
engine's docstrings name explicitly). -/
inductive ShapeKind where
  | ONE | TWO | THREE | C | FOUR | SEVEN | S | LETTER_O | A | F
  | FIVE | L | N | P | T | U | V | W | X | Y | Z
deriving DecidableEq, Repr

/-- Modelled from the spec: `shape_definitions.py` is not under `src/`.  The
textual definitions of the 21 shapes, in the dictionary's iteration order.
Following the parsing contract of the design document: `X` is a filled square,
`O` is a filled square that is also the origin, `@` is an origin marker that is
not itself a square; a definition with no explicit origin marker (only the
single-square shape) is not transformable.  Per the engine's docstring, `FIVE`
is a vertical line with its origin at the middle (third) square. -/
def defsList : List (ShapeKind × String) :=
  [ (.ONE, "X"),
    (.TWO, "OX"),
    (.THREE, "XOX"),
    (.C, "OX\nX"),
    (.FOUR, "OXXX"),
    (.SEVEN, "OX\n X\n X"),
    (.S, " OX\nXX"),
    (.LETTER_O, "OX\nXX"),
    (.A, "XOX\n X"),
    (.F, " XX\nXO\n X"),
    (.FIVE, "X\nX\nO\nX\nX"),
    (.L, "O\nX\nX\nXX"),
    (.N, " X\n X\nXO\nX"),
    (.P, "XX\nXO\nX"),
    (.T, "XXX\n O\n X"),
    (.U, "X X\nXOX"),
    (.V, "X\nX\nOXX"),
    (.W, "X\nXX\n OX"),
    (.X, " X\nXOX\n X"),
    (.Y, " X\nXO\n X\n X"),
    (.Z, "XX\n O\n XX") ]

/-- The shape kinds in catalog (dictionary insertion) order; this is the order
`remaining_shapes` filters (`Blokus.shapes` rebuilds the dict in
`definitions` order on every access, so its key order is `defsList`'s). -/
def shapesList : List ShapeKind := defsList.map Prod.fst

/-- Dictionary access `definitions[kind]` (`None` cannot occur: all 21 kinds
are keys). -/
def defLookup (k : ShapeKind) : Option String :=
  (defsList.find? (fun kd => decide (kd.1 = k))).map Prod.snd

/-- Split a character list at newline characters (`str.split('\n')`: empty
pieces are kept). -/
def splitLinesAux : List Char → List Char → List (List Char)
  | [], acc => [acc.reverse]
  | ch :: rest, acc =>
    if ch = '\n' then acc.reverse :: splitLinesAux rest []
    else splitLinesAux rest (ch :: acc)

/-- A definition string as a list of lines of characters. -/
def splitLines (s : String) : List (List Char) := splitLinesAux s.toList []

/-- A line containing only spaces (the modelled definitions are tab-free, so
this is the blank-line test `textwrap.dedent` uses). -/
def blankLine (l : List Char) : Bool := l.all (fun ch => ch = ' ')

/-- Number of leading space characters of a line. -/
def leadingSpaces (l : List Char) : Nat := (l.takeWhile (fun ch => ch = ' ')).length

/-- `textwrap.dedent` applied line-wise (dedenting the string and re-splitting
it yields exactly the dedented lines): drop the longest common leading-space
margin of the non-blank lines.  The modelled definitions are flush-left, so
this is the identity on them. -/
def dedentLines (lines : List (List Char)) : List (List Char) :=
  let rel := (lines.filter (fun l => !blankLine l)).map leadingSpaces
  let margin := match rel with
    | [] => 0
    | m :: ms => ms.foldl min m
  lines.map (fun l => if blankLine l then l else l.drop margin)

/-- `Shape` from `piece.py`: kind, origin, transformability flag and the list
of square offsets relative to the origin. -/
structure Shape where
  kind : ShapeKind
  origin : Point
  can_be_transformed : Bool
  squares : List Point
deriving DecidableEq, Repr

/-- `Shape.from_string` (`piece.py` lines 79-117): dedent, split into lines,
drop empty lines (`filter(None, lines)`), scan characters recording filled
squares (`X`, `O`) and the origin (`O`, `@`), then re-express every square
relative to the origin. -/
def Shape.from_string (kind : ShapeKind) (definition : String) : Shape :=
  let lines := (dedentLines (splitLines definition)).filter (fun l => l ≠ [])
  let scanned : List Point × Point × Bool :=
    lines.enum.foldl (fun acc rline =>
      rline.2.enum.foldl (fun acc2 cch =>
        let sqs := acc2.1
        let origin := acc2.2.1
        let transform := acc2.2.2
        let pt : Point := ((rline.1 : Int), (cch.1 : Int))
        if cch.2 = 'X' then (sqs ++ [pt], origin, transform)
        else if cch.2 = 'O' then (sqs ++ [pt], pt, true)
        else if cch.2 = '@' then (sqs, pt, true)
        else acc2) acc) ([], (0, 0), false)
  let origin := scanned.2.1
  let real_squares := scanned.1.map (fun q => (q.1 - origin.1, q.2 - origin.2))
  ⟨kind, origin, scanned.2.2, real_squares⟩

/-- `Shape.flip_horizontally`: negate the column of every offset, in place,
only when the shape is transformable. -/
def Shape.flip_horizontally (sh : Shape) : Shape :=
  if sh.can_be_transformed then
    { sh with squares := sh.squares.map (fun q => (q.1, -q.2)) }
  else sh

/-- `Shape.rotate_left`: `(r, c) ↦ (-c, r)` when transformable. -/
def Shape.rotate_left (sh : Shape) : Shape :=
  if sh.can_be_transformed then
    { sh with squares := sh.squares.map (fun q => (-q.2, q.1)) }
  else sh

/-- `Shape.rotate_right`: `(r, c) ↦ (c, -r)` when transformable. -/
def Shape.rotate_right (sh : Shape) : Shape :=
  if sh.can_be_transformed then
    { sh with squares := sh.squares.map (fun q => (q.2, -q.1)) }
  else sh

/-- The catalog entry for a kind, as built by the `Blokus.shapes` property
(`Shape.from_string` applied to the kind's textual definition). -/
def catalogShape (k : ShapeKind) : Shape :=
  Shape.from_string k ((defLookup k).getD "")

/-- A `Piece` orients a `Shape` at an optional anchor (`piece.py`).  The deep
copy the Python constructor takes is implicit in the pure model. -/
structure Piece where
  shape : Shape
  anchor : Option Point
deriving DecidableEq, Repr

/-- `Piece.squares()` once the anchor is known: each offset translated by the
anchor.  The engine only calls `squares()` after its anchor check, so the
anchor is always passed explicitly here. -/
def squaresAt (sh : Shape) (a : Point) : List Point :=
  sh.squares.map (fun q => (a.1 + q.1, a.2 + q.2))

/-- `Piece.cardinal_neighbors()`: every point one step north/east/south/west
of a square of the piece that is not itself a square of the piece.  (Python
collects them in a set; only membership is ever used, so a list with possible
duplicates is an equivalent model.) -/
def cardinal_neighbors (sqs : List Point) : List Point :=
  (sqs.flatMap (fun q => [(q.1 - 1, q.2), (q.1, q.2 + 1), (q.1 + 1, q.2), (q.1, q.2 - 1)])).filter
    (fun v => !decide (v ∈ sqs))

/-- `Piece.intercardinal_neighbors()`: every diagonal neighbor of a square
that is neither a square of the piece nor one of its cardinal neighbors. -/
def intercardinal_neighbors (sqs : List Point) : List Point :=
  (sqs.flatMap (fun q => [(q.1 - 1, q.2 - 1), (q.1 - 1, q.2 + 1), (q.1 + 1, q.2 + 1), (q.1 + 1, q.2 - 1)])).filter
    (fun v => !decide (v ∈ cardinal_neighbors sqs) && !decide (v ∈ sqs))

/-- A grid cell: empty, or `(player, shape kind)` (`blokus.py`). -/
abbrev Cell := Option (Nat × ShapeKind)

/-- The board: a list of rows of cells. -/
abbrev Grid := List (List Cell)

/-- Read `grid[r][c]`.  The engine only reads after an explicit bounds check,
so the out-of-range default is never observed along engine paths. -/
def cellAt (g : Grid) (r c : Int) : Cell := (g.getD r.toNat []).getD c.toNat none

/-- Write `grid[r][c] = v`.  The engine only writes coordinates that passed
the wall-collision check, so the write is always in range on engine paths. -/
def gridSet (g : Grid) (r c : Int) (v : Cell) : Grid :=
  g.set r.toNat ((g.getD r.toNat []).set c.toNat v)

/-- The fresh `size × size` all-empty grid. -/
def mkGrid (size : Nat) : Grid := List.replicate size (List.replicate size none)

/-- The full game state held by the `Blokus` engine. -/
structure Blokus where
  num_players : Nat
  size : Nat
  start_positions : Finset Point
  curr_player : Nat
  grid : Grid
  num_moves : Nat
  retired_players : Finset Nat
  played_pieces : List (Nat × ShapeKind)
deriving DecidableEq

/-- The state the constructor builds (after its `ValueError` validation). -/
def initBlokus (num_players size : Nat) (starts : Finset Point) : Blokus :=
  { num_players := num_players, size := size, start_positions := starts,
    curr_player := 1, grid := mkGrid size, num_moves := 0,
    retired_players := ∅, played_pieces := [] }

/-- The two call-time contract-violation errors of the design document; both
are bare `ValueError`s in the Python source, raised at the two guard sites of
`legal_to_place`. -/
inductive BlokusErr where
  | alreadyPlayedShape
  | noAnchorSet
deriving DecidableEq, Repr

/-- The inner loop of `Blokus.remaining_shapes` over one row: collect the
kinds of cells owned by `player` onto `acc` (`if cell is not None and
cell[0] == player`). -/
def rowKinds (player : Nat) : List Cell → List ShapeKind → List ShapeKind
  | [], acc => acc
  | none :: t, acc => rowKinds player t acc
  | some plk :: t, acc =>
    if plk.1 = player then plk.2 :: rowKinds player t acc else rowKinds player t acc

/-- `Blokus.remaining_shapes` helper: the kinds occurring in cells owned by
`player`, in grid scan order. -/
def playedKindsG (g : Grid) (player : Nat) : List ShapeKind :=
  match g with
  | [] => []
  | row :: t => rowKinds player row (playedKindsG t player)

/-- `Blokus.remaining_shapes`: the catalog kinds (in catalog order) that
`player` has not yet played, derived from the grid. -/
def remaining_shapes (s : Blokus) (player : Nat) : List ShapeKind :=
  shapesList.filter (fun k => !decide (k ∈ playedKindsG s.grid player))

/-- `Blokus.any_wall_collisions`: some square lies outside the board. -/
def any_wall_collisions (s : Blokus) (sqs : List Point) : Bool :=
  sqs.any (fun q => decide (q.1 < 0) || decide (q.2 < 0) ||
    decide ((s.size : Int) ≤ q.1) || decide ((s.size : Int) ≤ q.2))

/-- `Blokus.any_collisions`: wall collision, or some square lands on an
occupied cell. -/
def any_collisions (s : Blokus) (sqs : List Point) : Bool :=
  if !any_wall_collisions s sqs then
    sqs.any (fun q => (cellAt s.grid q.1 q.2).isSome)
  else true

/-- The in-bounds test of the two neighbor loops of `legal_to_place`
(`r < size and r >= 0 and c < size and c >= 0`). -/
def inb (s : Blokus) (r c : Int) : Bool :=
  decide (r < (s.size : Int)) && decide (0 ≤ r) && decide (c < (s.size : Int)) && decide (0 ≤ c)

/-- `cell != None and cell[0] == player` at `(r, c)`. -/
def ownCell (s : Blokus) (player : Nat) (r c : Int) : Bool :=
  match cellAt s.grid r c with
  | some plk => decide (plk.1 = player)
  | none => false

/-- `Blokus.legal_to_place` (`blokus.py` lines 263-316), with its exact check
order: already-played guard, anchor guard, collision test, opening-move branch
(`num_moves < num_players - len(retired_players)`: start-position coverage),
then the cardinal (forbidden) and intercardinal (required) adjacency tests. -/
def legal_to_place (s : Blokus) (p : Piece) : Except BlokusErr Bool :=
  if p.shape.kind ∉ remaining_shapes s s.curr_player then
    .error .alreadyPlayedShape
  else
    match p.anchor with
    | none => .error .noAnchorSet
    | some a =>
      let sqs := squaresAt p.shape a
      if any_collisions s sqs then .ok false
      else if s.num_moves < s.num_players - s.retired_players.card then
        .ok (sqs.any (fun q => decide (q ∈ s.start_positions)))
      else if (cardinal_neighbors sqs).any (fun q => inb s q.1 q.2 && ownCell s s.curr_player q.1 q.2) then
        .ok false
      else
        .ok ((intercardinal_neighbors sqs).any (fun q => inb s q.1 q.2 && ownCell s s.curr_player q.1 q.2))

/-- One step of the turn pointer: `(curr % num_players) + 1`. -/
def stepPlayer (num x : Nat) : Nat := (x % num) + 1

/-- The `while self._curr_player in self.retired_players` advance loop of
`maybe_place` and `retire`, with explicit fuel.  The engine only enters the
loop when `len(retired) != num_players`; with fuel `num_players` the model
agrees with the Python loop whenever some player in `1..num_players` is not
retired (proved below), which holds at every reachable entry. -/
def skipLoop (num : Nat) (retired : Finset Nat) : Nat → Nat → Nat
  | 0, c => c
  | fuel + 1, c => if c ∈ retired then skipLoop num retired fuel (stepPlayer num c) else c

/-- Commit a piece: write `(player, kind)` into each square, in order. -/
def writeCells (g : Grid) (sqs : List Point) (v : Cell) : Grid :=
  sqs.foldl (fun g2 q => gridSet g2 q.1 q.2 v) g

/-- `Blokus.maybe_place` (`blokus.py` lines 318-362): returns `False`
unchanged when the current player is retired or the move is illegal
(propagating `legal_to_place`'s errors); otherwise commits the squares,
appends to the placement history, increments the move counter and advances
the turn pointer past retired players. -/
def maybe_place (s : Blokus) (p : Piece) : Except BlokusErr (Bool × Blokus) :=
  if s.curr_player ∈ s.retired_players then .ok (false, s)
  else
    match legal_to_place s p with
    | .error e => .error e
    | .ok false => .ok (false, s)
    | .ok true =>
      if p.shape.kind ∉ remaining_shapes s s.curr_player then
        .error .alreadyPlayedShape
      else
        match p.anchor with
        | none => .error .noAnchorSet
        | some a =>
          let sqs := squaresAt p.shape a
          let g2 := writeCells s.grid sqs (some (s.curr_player, p.shape.kind))
          let hist2 := s.played_pieces ++ [(s.curr_player, p.shape.kind)]
          let c1 := stepPlayer s.num_players s.curr_player
          let c2 :=
            if s.retired_players.card ≠ s.num_players then
              skipLoop s.num_players s.retired_players s.num_players c1
            else stepPlayer s.num_players c1
          .ok (true, { s with grid := g2, played_pieces := hist2,
                              curr_player := c2, num_moves := s.num_moves + 1 })

/-- `Blokus.retire` (`blokus.py` lines 364-377): add the current player to the
retired set if absent, then advance the turn pointer with the same skip rule
as `maybe_place`. -/
def retireOp (s : Blokus) : Blokus :=
  let r2 := if s.curr_player ∈ s.retired_players then s.retired_players
            else insert s.curr_player s.retired_players
  let c2 := if r2.card ≠ s.num_players then skipLoop s.num_players r2 s.num_players s.curr_player
            else stepPlayer s.num_players s.curr_player
  { s with retired_players := r2, curr_player := c2 }

/-- `Blokus.game_over` (`blokus.py` lines 152-173): everyone retired; or the
2-player special case (one retiree and the current player exhausted); or
`done + len(retired) == num_players` where `done` counts players with empty
inventories. -/
def game_over (s : Blokus) : Bool :=
  if s.retired_players.card = s.num_players then true
  else if s.retired_players.card = 1 ∧ s.num_players = 2 ∧
      (remaining_shapes s s.curr_player).length = 0 then true
  else decide
    ((List.range' 1 s.num_players).countP (fun q => decide ((remaining_shapes s q).length = 0))
      + s.retired_players.card = s.num_players)

/-- The character count of a definition after `get_score`'s stripping: Python
strips the string then removes spaces, `@` and line breaks (the leading
`.strip()` removes only characters that the later removals delete anyway,
since the modelled definitions contain no tabs). -/
def stripLen (d : String) : Nat :=
  (d.toList.filter (fun ch => !(ch = ' ' || ch = '@' || ch = '\n'))).length

/-- The bonus scan of `get_score` (`blokus.py` lines 397-406): walk
`_played_pieces[x]` for `x in range(-1, -len(_played_pieces), -1)` — that is,
every history entry except the first — and award 20 at the first entry of
`player` whose kind is `ONE` (entries of `player` with other kinds are
scanned past, not stopped at); otherwise 15.  Net effect: 20 exactly when
`(player, ONE)` occurs anywhere after position 0 of the history. -/
def scoreBonusScan (hist : List (Nat × ShapeKind)) (player : Nat) : Int :=
  if (hist.drop 1).any (fun e => decide (e.1 = player) && decide (e.2 = ShapeKind.ONE)) then 20
  else 15

/-- `Blokus.get_score` (`blokus.py` lines 380-408): with a non-empty remaining
inventory, subtract each unplayed definition's stripped length; with an empty
inventory, run the bonus scan. -/
def get_score (s : Blokus) (player : Nat) : Int :=
  let pieces := remaining_shapes s player
  if pieces.length ≠ 0 then
    pieces.foldl (fun sc k =>
      match defLookup k with
      | some d => sc - (stripLen d : Int)
      | none => sc) 0
  else scoreBonusScan s.played_pieces player

/-- `Blokus.reset` (`blokus.py` lines 435-442): fresh grid, player 1, zero
moves, empty retired set; every other field (in particular the placement
history `_played_pieces`) is left untouched. -/
def resetOp (s : Blokus) : Blokus :=
  { s with grid := mkGrid s.size, curr_player := 1, num_moves := 0, retired_players := ∅ }

/-- The reachable engine states: a validated constructor call followed by any
sequence of `maybe_place`, `retire` and `reset` calls.  (A `maybe_place` that
raises leaves the state unmodified, so error outcomes add no states.)  The
constructor hypotheses are exactly the `ValueError` guards of `__init__`. -/
inductive Reachable : Blokus → Prop where
  | init (num_players size : Nat) (starts : Finset Point)
      (h1 : 1 ≤ num_players) (h2 : num_players ≤ 4) (h3 : 5 ≤ size)
      (h4 : ∀ q ∈ starts, 0 ≤ q.1 ∧ q.1 ≤ (size : Int) - 1 ∧ 0 ≤ q.2 ∧ q.2 ≤ (size : Int) - 1)
      (h5 : num_players ≤ starts.card) :
      Reachable (initBlokus num_players size starts)
  | place {s s' : Blokus} {p : Piece} {b : Bool} :
      Reachable s → maybe_place s p = .ok (b, s') → Reachable s'
  | retireStep {s : Blokus} : Reachable s → Reachable (retireOp s)
  | resetStep {s : Blokus} : Reachable s → Reachable (resetOp s)

/-- An operation of the concrete witness trace. -/
inductive TraceOp where
  | place (k : ShapeKind) (a : Point)
  | retireMove
deriving DecidableEq, Repr

/-- Run a list of operations, requiring every placement to succeed. -/
def runTrace : Blokus → List TraceOp → Option Blokus
  | s, [] => some s
  | s, .place k a :: rest =>
    match maybe_place s ⟨catalogShape k, some a⟩ with
    | .ok (true, s') => runTrace s' rest
    | _ => none
  | s, .retireMove :: rest => runTrace (retireOp s) rest
def traceInit : Blokus := initBlokus 3 55 {((0 : Int), (5 : Int)), ((0 : Int), (11 : Int)), ((0 : Int), (0 : Int))}

def traceOps : List TraceOp :=
  [ .place ShapeKind.ONE ((0 : Int), (5 : Int)),
    .place ShapeKind.ONE ((0 : Int), (11 : Int)),
    .retireMove,
    .place ShapeKind.TWO ((1 : Int), (6 : Int)),
    .place ShapeKind.TWO ((1 : Int), (12 : Int)),
    .place ShapeKind.THREE ((2 : Int), (9 : Int)),
    .place ShapeKind.THREE ((2 : Int), (15 : Int)),
    .place ShapeKind.C ((3 : Int), (11 : Int)),
    .place ShapeKind.C ((3 : Int), (17 : Int)),
    .place ShapeKind.FOUR ((5 : Int), (12 : Int)),
    .place ShapeKind.FOUR ((5 : Int), (18 : Int)),
    .place ShapeKind.SEVEN ((6 : Int), (16 : Int)),
    .place ShapeKind.SEVEN ((6 : Int), (22 : Int)),
    .place ShapeKind.S ((9 : Int), (18 : Int)),
    .place ShapeKind.S ((9 : Int), (24 : Int)),
    .place ShapeKind.LETTER_O ((11 : Int), (19 : Int)),
    .place ShapeKind.LETTER_O ((11 : Int), (25 : Int)),
    .place ShapeKind.A ((13 : Int), (22 : Int)),
    .place ShapeKind.A ((13 : Int), (28 : Int)),
    .place ShapeKind.F ((16 : Int), (23 : Int)),
    .place ShapeKind.F ((16 : Int), (29 : Int)),
    .place ShapeKind.FIVE ((20 : Int), (24 : Int)),
    .place ShapeKind.FIVE ((20 : Int), (30 : Int)),
    .place ShapeKind.L ((23 : Int), (25 : Int)),
    .place ShapeKind.L ((23 : Int), (31 : Int)),
    .place ShapeKind.N ((29 : Int), (27 : Int)),
    .place ShapeKind.N ((29 : Int), (33 : Int)),
    .place ShapeKind.P ((32 : Int), (28 : Int)),
    .place ShapeKind.P ((32 : Int), (34 : Int)),
    .place ShapeKind.T ((35 : Int), (29 : Int)),
    .place ShapeKind.T ((35 : Int), (35 : Int)),
    .place ShapeKind.U ((38 : Int), (31 : Int)),
    .place ShapeKind.U ((38 : Int), (37 : Int)),
    .place ShapeKind.V ((41 : Int), (33 : Int)),
    .place ShapeKind.V ((41 : Int), (39 : Int)),
    .place ShapeKind.W ((44 : Int), (37 : Int)),
    .place ShapeKind.W ((44 : Int), (43 : Int)),
    .place ShapeKind.X ((46 : Int), (39 : Int)),
    .place ShapeKind.X ((46 : Int), (45 : Int)),
    .place ShapeKind.Y ((49 : Int), (40 : Int)),
    .place ShapeKind.Y ((49 : Int), (46 : Int)),
    .place ShapeKind.Z ((53 : Int), (42 : Int)),
    .place ShapeKind.Z ((53 : Int), (48 : Int)),
    .retireMove ]

/-- The conjunction of facts checked on the trace's final state: the game is
not over, the current player is player 2, player 2's remaining inventory is
empty, and every player is either retired or fully exhausted. -/
def checkFinal (s : Blokus) : Bool :=
  !game_over s && decide (s.curr_player = 2) && decide (remaining_shapes s s.curr_player = []) &&
    (List.range' 1 s.num_players).all
      (fun q => decide (q ∈ s.retired_players) || decide (remaining_shapes s q = []))

/-- The final state of the witness trace. -/
def traceFinal : Blokus := (runTrace traceInit traceOps).getD traceInit

/-- The most recently placed kind of `player` (the spec's backward scan of the
placement history, stopping at the first entry of `player`). -/
def lastOwnKind (hist : List (Nat × ShapeKind)) (player : Nat) : Option ShapeKind :=
  (hist.reverse.find? (fun e => decide (e.1 = player))).map Prod.snd

/-- The scoring function as the specification words it: a non-empty remaining
inventory scores the negated total square count of the unplayed kinds; an
empty inventory scores 20 when the player's most recently placed piece was the
single-square kind, and 15 otherwise.  (Stated for comparison with the
engine's `get_score`.) -/
def spec_get_score (s : Blokus) (player : Nat) : Int :=
  if remaining_shapes s player ≠ [] then
    -(((remaining_shapes s player).map (fun k => ((catalogShape k).squares.length : Int))).sum)
  else if lastOwnKind s.played_pieces player = some ShapeKind.ONE then 20
  else 15

/-- A board on which player 1 has committed all 21 shape kinds. -/
def c2Grid : Grid :=
  [ [some (1, .ONE), some (1, .TWO), some (1, .THREE), some (1, .C), some (1, .FOUR)],
    [some (1, .SEVEN), some (1, .S), some (1, .LETTER_O), some (1, .A), some (1, .F)],
    [some (1, .FIVE), some (1, .L), some (1, .N), some (1, .P), some (1, .T)],
    [some (1, .U), some (1, .V), some (1, .W), some (1, .X), some (1, .Y)],
    [some (1, .Z), none, none, none, none] ]

/-- A state in which player 1's inventory is empty and the most recently
placed piece of player 1 is `TWO`, while `(1, ONE)` occurs earlier in the
history (after position 0). -/
def c2State : Blokus :=
  { num_players := 1, size := 5, start_positions := {((0 : Int), (0 : Int))},
    curr_player := 1, grid := c2Grid, num_moves := 21, retired_players := ∅,
    played_pieces := [(1, .FIVE), (1, .ONE), (1, .TWO)] }

/-- The count the opening-rule sentence of the claim speaks of: players (among
`1..num_players`) that have not yet committed a placement and are not retired.
(Stated for comparison with the engine's `num_moves < num_players -
len(retired_players)` condition.) -/
def spec_playersNotMovedNotRetired (s : Blokus) : Nat :=
  (List.range' 1 s.num_players).countP
    (fun q => !decide (∃ e ∈ s.played_pieces, e.1 = q) && !decide (q ∈ s.retired_players))

/-- Well-formedness of the board: a `size × size` matrix.  It holds for the
constructor's board and is preserved by every engine operation. -/
def GridWF (s : Blokus) : Prop :=
  s.grid.length = s.size ∧ ∀ row ∈ s.grid, row.length = s.size

/-- Cell value at non-negative integer coordinates (row `i`, column `j`);
out-of-range positions read as empty. -/
def cellAtN (g : Grid) (i j : Nat) : Cell := (g.getD i []).getD j none

/-- The cell value `v` occurs somewhere on the board. -/
def CellIn (g : Grid) (v : Nat × ShapeKind) : Prop := ∃ i j, cellAtN g i j = some v

/-- One engine mutation: a `maybe_place` call that returns (with either
boolean), or a `retire` call.  (`reset` is deliberately not included: it is
the operation the inventory-monotonicity claim fails on.) -/
inductive EngineStep : Blokus → Blokus → Prop where
  | placeStep {s s' : Blokus} (p : Piece) (b : Bool) :
      maybe_place s p = .ok (b, s') → EngineStep s s'
  | retireStep {s : Blokus} : EngineStep s (retireOp s)

/-- The invariant of the turn pointer and retired set maintained by every
reachable state: at least one player; the pointer in `1..num_players`; the
retired set within `1..num_players`; and the pointer outside the retired set
unless everyone is retired. -/
def PlayersInv (s : Blokus) : Prop :=
  1 ≤ s.num_players ∧ s.curr_player ∈ Finset.Icc 1 s.num_players ∧
    s.retired_players ⊆ Finset.Icc 1 s.num_players ∧
    (s.curr_player ∉ s.retired_players ∨ s.retired_players.card = s.num_players)

/-- A 1-player starting state used to witness the reachable-state theorems. -/
def w1Init : Blokus := initBlokus 1 5 {((0 : Int), (0 : Int))}

/-- A 4-player starting state (nobody has moved or retired). -/
def c4State : Blokus :=
  initBlokus 4 5 {((0 : Int), (0 : Int)), ((0 : Int), (4 : Int)),
    ((4 : Int), (0 : Int)), ((4 : Int), (4 : Int))}

/-- A candidate opening piece for player 1 of `c4State`, covering the start
position `(0, 0)`. -/
def c4Piece : Piece := ⟨catalogShape .ONE, some ((0 : Int), (0 : Int))⟩

/-- A 1-player state after the opening move (used to witness the
subsequent-move rule): player 1 owns the single cell `(0, 0)`. -/
def c5State : Blokus :=
  (runTrace w1Init [.place ShapeKind.ONE ((0 : Int), (0 : Int))]).getD w1Init

/-- A candidate piece for `c5State` touching player 1's square only
diagonally. -/
def c5Piece : Piece := ⟨catalogShape .TWO, some ((1 : Int), (1 : Int))⟩

/-- A candidate piece for `w1Init` that covers no start position, so that
`maybe_place` fails and returns the state unchanged. -/
def c6Piece : Piece := ⟨catalogShape .ONE, some ((2 : Int), (2 : Int))⟩

/-- The state after player 1 of `w1Init` places the single-square shape on
the start position. -/
def c9After : Blokus :=
  (runTrace w1Init [.place ShapeKind.ONE ((0 : Int), (0 : Int))]).getD w1Init

/-- The piece producing `c9After`. -/
def c9Piece : Piece := ⟨catalogShape .ONE, some ((0 : Int), (0 : Int))⟩

/-- Equality of `maybe_place` results is decidable (used to evaluate the
concrete witness states). -/
instance : DecidableEq (Except BlokusErr (Bool × Blokus)) := fun x y =>
  match x, y with
  | .ok a, .ok b => decidable_of_iff (a = b) (by simp)
  | .error a, .error b => decidable_of_iff (a = b) (by simp)
  | .ok _, .error _ => isFalse (by simp)
  | .error _, .ok _ => isFalse (by simp)


theorem countP_mem_finset_card {R : Finset ℕ} {n : ℕ} (hR : R ⊆ Finset.Icc 1 n) :
    (List.range' 1 n).countP (fun q => decide (q ∈ R)) = R.card := by
  rw [List.countP_eq_length_filter]
  have hperm : List.Perm ((List.range' 1 n).filter (fun q => decide (q ∈ R))) R.toList := by
    rw [List.perm_ext_iff_of_nodup ((List.nodup_range' _ _).filter _) R.nodup_toList]
    intro a
    simp only [List.mem_filter, Finset.mem_toList, decide_eq_true_eq, List.mem_range'_1]
    constructor
    · rintro ⟨_, h⟩; exact h
    · intro h
      have h2 := hR h
      rw [Finset.mem_Icc] at h2
      exact ⟨⟨h2.1, by omega⟩, h⟩
  rw [hperm.length_eq, Finset.length_toList]

theorem notRetired_countP {s : Blokus} (hret : s.retired_players ⊆ Finset.Icc 1 s.num_players) :
    (List.range' 1 s.num_players).countP (fun q => !decide (q ∈ s.retired_players)) =
      s.num_players - s.retired_players.card := by
  have hc := countP_mem_finset_card hret
  have hl : s.num_players =
      (List.range' 1 s.num_players).countP (fun q => decide (q ∈ s.retired_players)) +
        (List.range' 1 s.num_players).countP (fun q => !decide (q ∈ s.retired_players)) := by
    have h0 := List.length_eq_countP_add_countP
      (fun q => decide (q ∈ s.retired_players)) (List.range' 1 s.num_players)
    rw [List.length_range'] at h0
    simp only [decide_not, Bool.decide_coe] at h0
    exact h0
  omega

theorem getD_set_ne {α : Type} (l : List α) {i n : Nat} (v d : α) (h : i ≠ n) :
    (l.set n v).getD i d = l.getD i d := by
  induction l generalizing i n with
  | nil => rfl
  | cons a t ih =>
    cases n with
    | zero =>
      cases i with
      | zero => exact absurd rfl h
      | succ j => rfl
    | succ m =>
      cases i with
      | zero => rfl
      | succ j => exact ih (fun hh => h (by omega))

theorem getD_set_self {α : Type} (l : List α) {n : Nat} (v d : α) (h : n < l.length) :
    (l.set n v).getD n d = v := by
  induction l generalizing n with
  | nil => simp at h
  | cons a t ih =>
    cases n with
    | zero => rfl
    | succ m => exact ih (by simpa using h)

theorem set_noop {α : Type} (l : List α) {n : Nat} (v : α) (h : l.length ≤ n) :
    l.set n v = l := by
  induction l generalizing n with
  | nil => rfl
  | cons a t ih =>
    cases n with
    | zero => simp at h
    | succ m => simp [List.set, ih (by simpa using h)]

theorem cellAtN_gridSet_ne {g : Grid} {r c : Int} {v : Cell} {i j : Nat}
    (h : i ≠ r.toNat ∨ j ≠ c.toNat) :
    cellAtN (gridSet g r c v) i j = cellAtN g i j := by
  rcases h with h | h
  · unfold cellAtN gridSet
    rw [getD_set_ne _ _ _ h]
  · by_cases hi : i = r.toNat
    · subst hi
      unfold cellAtN gridSet
      by_cases hr : r.toNat < g.length
      · rw [getD_set_self _ _ _ hr]
        rw [getD_set_ne _ _ _ h]
      · rw [set_noop _ _ (by omega)]
    · unfold cellAtN gridSet
      rw [getD_set_ne _ _ _ hi]

theorem cellAtN_gridSet_self {g : Grid} {r c : Int} {v : Cell}
    (hr : r.toNat < g.length) (hc : c.toNat < (g.getD r.toNat []).length) :
    cellAtN (gridSet g r c v) r.toNat c.toNat = v := by
  unfold cellAtN gridSet
  rw [getD_set_self _ _ _ hr, getD_set_self _ _ _ hc]

theorem cellAtN_gridSet_or (g : Grid) (r c : Int) (v : Cell) (i j : Nat) :
    cellAtN (gridSet g r c v) i j = cellAtN g i j ∨ cellAtN (gridSet g r c v) i j = v := by
  by_cases hi : i = r.toNat
  · by_cases hj : j = c.toNat
    · subst hi; subst hj
      by_cases hr : r.toNat < g.length
      · by_cases hc : c.toNat < (g.getD r.toNat []).length
        · exact Or.inr (cellAtN_gridSet_self hr hc)
        · left
          unfold cellAtN gridSet
          rw [getD_set_self _ _ _ hr, set_noop _ _ (by omega)]
      · left
        unfold cellAtN gridSet
        rw [set_noop _ _ (by omega)]
    · exact Or.inl (cellAtN_gridSet_ne (Or.inr hj))
  · exact Or.inl (cellAtN_gridSet_ne (Or.inl hi))

theorem CellIn_writeCells_elim {w : Nat × ShapeKind} {x : Nat × ShapeKind} :
    ∀ (sqs : List Point) (g : Grid),
      CellIn (writeCells g sqs (some w)) x → x = w ∨ CellIn g x := by
  intro sqs
  induction sqs with
  | nil => exact fun g h => Or.inr h
  | cons q t ih =>
    intro g h
    rcases ih (gridSet g q.1 q.2 (some w)) h with h1 | h1
    · exact Or.inl h1
    · obtain ⟨i, j, hij⟩ := h1
      rcases cellAtN_gridSet_or g q.1 q.2 (some w) i j with h2 | h2
      · exact Or.inr ⟨i, j, h2 ▸ hij⟩
      · rw [hij] at h2
        exact Or.inl (Option.some.inj h2)

theorem CellIn_writeCells_mono {w : Nat × ShapeKind} {x : Nat × ShapeKind} :
    ∀ (sqs : List Point) (g : Grid),
      (∀ q ∈ sqs, cellAtN g q.1.toNat q.2.toNat = none ∨ cellAtN g q.1.toNat q.2.toNat = some w) →
      CellIn g x → CellIn (writeCells g sqs (some w)) x := by
  intro sqs
  induction sqs with
  | nil => exact fun g _ h => h
  | cons q t ih =>
    intro g hv h
    apply ih
    · intro q' hq'
      rcases cellAtN_gridSet_or g q.1 q.2 (some w) q'.1.toNat q'.2.toNat with h2 | h2
      · rw [h2]; exact hv q' (List.mem_cons_of_mem _ hq')
      · exact Or.inr h2
    · obtain ⟨i, j, hij⟩ := h
      by_cases hpos : i = q.1.toNat ∧ j = q.2.toNat
      · rcases hv q (List.mem_cons_self _ _) with h0 | h0
        · rw [hpos.1, hpos.2] at hij
          rw [h0] at hij
          exact absurd hij (by simp)
        · rw [hpos.1, hpos.2] at hij
          rw [h0] at hij
          rcases cellAtN_gridSet_or g q.1 q.2 (some w) q.1.toNat q.2.toNat with h2 | h2
          · exact ⟨q.1.toNat, q.2.toNat, by rw [h2, h0, hij]⟩
          · exact ⟨q.1.toNat, q.2.toNat, by rw [h2, ← hij]⟩
      · refine ⟨i, j, ?_⟩
        rw [cellAtN_gridSet_ne (by tauto)]
        exact hij

theorem CellIn_writeCells_self {w : Nat × ShapeKind} :
    ∀ (sqs : List Point) (g : Grid),
      sqs ≠ [] →
      (∀ q ∈ sqs, cellAtN g q.1.toNat q.2.toNat = none) →
      (∀ q ∈ sqs, q.1.toNat < g.length ∧ q.2.toNat < (g.getD q.1.toNat []).length) →
      CellIn (writeCells g sqs (some w)) w := by
  intro sqs
  induction sqs with
  | nil => exact fun g h _ _ => absurd rfl h
  | cons q t _ =>
    intro g _ hempty hrange
    have h0 : CellIn (gridSet g q.1 q.2 (some w)) w := by
      refine ⟨q.1.toNat, q.2.toNat, ?_⟩
      exact cellAtN_gridSet_self (hrange q (List.mem_cons_self _ _)).1
        (hrange q (List.mem_cons_self _ _)).2
    apply CellIn_writeCells_mono t
    · intro q' hq'
      rcases cellAtN_gridSet_or g q.1 q.2 (some w) q'.1.toNat q'.2.toNat with h2 | h2
      · rw [h2]
        exact Or.inl (hempty q' (List.mem_cons_of_mem _ hq'))
      · exact Or.inr h2
    · exact h0

theorem mem_rowKinds {player : Nat} {k : ShapeKind} :
    ∀ (row : List Cell) (acc : List ShapeKind),
      k ∈ rowKinds player row acc ↔ (some (player, k)) ∈ row ∨ k ∈ acc := by
  intro row
  induction row with
  | nil => simp [rowKinds]
  | cons cl t ih =>
    intro acc
    rcases cl with _ | ⟨p1, p2⟩
    · simp [rowKinds, ih]
    · by_cases hp : p1 = player
      · subst hp
        simp [rowKinds, ih, Prod.mk.injEq]
        tauto
      · simp only [rowKinds, if_neg (by simpa using hp), List.mem_cons, ih,
          Option.some.injEq, Prod.mk.injEq]
        constructor
        · tauto
        · rintro ((⟨h1, h2⟩ | h) | h)
          · exact absurd h1.symm hp
          · tauto
          · tauto

theorem mem_playedKindsG {player : Nat} {k : ShapeKind} :
    ∀ (g : Grid), k ∈ playedKindsG g player ↔ ∃ row ∈ g, (some (player, k)) ∈ row := by
  intro g
  induction g with
  | nil => simp [playedKindsG]
  | cons row t ih =>
    simp only [playedKindsG, mem_rowKinds, List.mem_cons, ih]
    constructor
    · rintro (h | ⟨r2, hr2, h2⟩)
      · exact ⟨row, Or.inl rfl, h⟩
      · exact ⟨r2, Or.inr hr2, h2⟩
    · rintro ⟨r2, hr2 | hr2, h2⟩
      · exact Or.inl (hr2 ▸ h2)
      · exact Or.inr ⟨r2, hr2, h2⟩

theorem mem_grid_iff_cellAtN {g : Grid} {v : Nat × ShapeKind} :
    (∃ row ∈ g, (some v) ∈ row) ↔ CellIn g v := by
  constructor
  · rintro ⟨row, hrow, hv⟩
    obtain ⟨i, hi, hrow2⟩ := List.mem_iff_getElem.mp hrow
    obtain ⟨j, hj, hv2⟩ := List.mem_iff_getElem.mp hv
    refine ⟨i, j, ?_⟩
    unfold cellAtN
    rw [List.getD_eq_getElem _ _ hi, hrow2, List.getD_eq_getElem _ _ hj, hv2]
  · rintro ⟨i, j, hij⟩
    unfold cellAtN at hij
    by_cases hi : i < g.length
    · by_cases hj : j < (g.getD i []).length
      · rw [List.getD_eq_getElem _ _ hj] at hij
        refine ⟨g.getD i [], ?_, ?_⟩
        · rw [List.getD_eq_getElem _ _ hi]
          exact List.getElem_mem hi
        · rw [← hij]
          exact List.getElem_mem hj
      · rw [List.getD_eq_default _ _ (by omega)] at hij
        exact absurd hij (by simp)
    · rw [show g.getD i [] = [] from List.getD_eq_default _ _ (by omega)] at hij
      simp at hij

theorem no_collision_elim {s : Blokus} {sqs : List Point} (h : any_collisions s sqs = false) :
    any_wall_collisions s sqs = false ∧ ∀ q ∈ sqs, cellAt s.grid q.1 q.2 = none := by
  unfold any_collisions at h
  split at h
  · rename_i hw
    rw [Bool.not_eq_eq_eq_not, Bool.not_true] at hw
    refine ⟨hw, ?_⟩
    intro q hq
    rw [List.any_eq_false] at h
    have h2 := h q hq
    have h3 : ¬(cellAt s.grid q.1 q.2).isSome = true := by simp [h2]
    exact Option.not_isSome_iff_eq_none.mp h3
  · exact absurd h (by simp)

theorem no_wall_elim {s : Blokus} {sqs : List Point} (h : any_wall_collisions s sqs = false) :
    ∀ q ∈ sqs, 0 ≤ q.1 ∧ q.1 < (s.size : Int) ∧ 0 ≤ q.2 ∧ q.2 < (s.size : Int) := by
  unfold any_wall_collisions at h
  rw [List.any_eq_false] at h
  intro q hq
  have h2 := h q hq
  simp only [Bool.not_eq_true, Bool.or_eq_false_iff, decide_eq_false_iff_not] at h2
  omega

theorem legal_true_elim {s : Blokus} {p : Piece} {a : Point} (ha : p.anchor = some a)
    (h : legal_to_place s p = .ok true) :
    p.shape.kind ∈ remaining_shapes s s.curr_player ∧
    any_collisions s (squaresAt p.shape a) = false ∧ squaresAt p.shape a ≠ [] := by
  by_cases hk : p.shape.kind ∈ remaining_shapes s s.curr_player
  · obtain ⟨sh, anc⟩ := p
    simp only [Option.some.injEq] at ha
    subst ha
    simp only [legal_to_place] at h
    rw [if_neg (by simpa using hk)] at h
    refine ⟨hk, ?_⟩
    split at h
    · exact absurd h (by simp)
    · rename_i hcol
      rw [Bool.not_eq_true] at hcol
      refine ⟨hcol, ?_⟩
      split at h
      · injection h with h2
        rw [List.any_eq_true] at h2
        obtain ⟨q, hq, _⟩ := h2
        exact List.ne_nil_of_mem hq
      · split at h
        · exact absurd h (by simp)
        · injection h with h2
          rw [List.any_eq_true] at h2
          obtain ⟨q, hq, _⟩ := h2
          unfold intercardinal_neighbors at hq
          rw [List.mem_filter] at hq
          obtain ⟨q0, hq0, _⟩ := List.mem_flatMap.mp hq.1
          exact List.ne_nil_of_mem hq0
  · simp [legal_to_place, hk] at h

theorem maybe_place_true_elim {s : Blokus} {p : Piece} {s' : Blokus}
    (h : maybe_place s p = .ok (true, s')) :
    ∃ a, p.anchor = some a ∧ s.curr_player ∉ s.retired_players ∧
      legal_to_place s p = .ok true ∧
      s'.grid = writeCells s.grid (squaresAt p.shape a) (some (s.curr_player, p.shape.kind)) ∧
      s'.played_pieces = s.played_pieces ++ [(s.curr_player, p.shape.kind)] ∧
      s'.num_players = s.num_players ∧ s'.size = s.size ∧ s'.num_moves = s.num_moves + 1 ∧
      s'.retired_players = s.retired_players ∧ s'.start_positions = s.start_positions ∧
      s'.curr_player =
        (if s.retired_players.card ≠ s.num_players then
          skipLoop s.num_players s.retired_players s.num_players
            (stepPlayer s.num_players s.curr_player)
        else stepPlayer s.num_players (stepPlayer s.num_players s.curr_player)) := by
  unfold maybe_place at h
  split at h
  · exact absurd h (by simp)
  · rename_i hnr
    split at h
    · exact absurd h (by simp)
    · exact absurd h (by simp)
    · rename_i hlegal
      split at h
      · exact absurd h (by simp)
      · split at h
        · exact absurd h (by simp)
        · rename_i a ha
          injection h with h1
          injection h1 with _ h2
          exact ⟨a, ha, hnr, hlegal, by rw [← h2], by rw [← h2], by rw [← h2], by rw [← h2],
            by rw [← h2], by rw [← h2], by rw [← h2], by rw [← h2]⟩

theorem shapesList_nodup : shapesList.Nodup := by decide

theorem placed_remaining {s : Blokus} {p : Piece} {s' : Blokus} (hwf : GridWF s)
    (h : maybe_place s p = .ok (true, s')) :
    p.shape.kind ∈ remaining_shapes s s.curr_player ∧
    remaining_shapes s' s.curr_player =
      (remaining_shapes s s.curr_player).filter (fun k => decide (k ≠ p.shape.kind)) ∧
    (remaining_shapes s' s.curr_player).length + 1 =
      (remaining_shapes s s.curr_player).length := by
  obtain ⟨a, ha, hnr, hlegal, hgrid, -, -, -, -, -, -⟩ := maybe_place_true_elim h
  obtain ⟨hk, hcol, hne⟩ := legal_true_elim ha hlegal
  obtain ⟨hwall, hempty⟩ := no_collision_elim hcol
  have hbounds := no_wall_elim hwall
  set sqs := squaresAt p.shape a with hsqs
  set w : Nat × ShapeKind := (s.curr_player, p.shape.kind) with hw
  have hemptyN : ∀ q ∈ sqs, cellAtN s.grid q.1.toNat q.2.toNat = none := fun q hq => hempty q hq
  have hrange : ∀ q ∈ sqs, q.1.toNat < s.grid.length ∧
      q.2.toNat < (s.grid.getD q.1.toNat []).length := by
    intro q hq
    obtain ⟨h1, h2, h3, h4⟩ := hbounds q hq
    have hr : q.1.toNat < s.size := by omega
    refine ⟨by rw [hwf.1]; exact hr, ?_⟩
    have hrow : s.grid.getD q.1.toNat [] ∈ s.grid := by
      rw [List.getD_eq_getElem _ _ (by rw [hwf.1]; exact hr)]
      exact List.getElem_mem _
    rw [hwf.2 _ hrow]
    omega
  have hkey : ∀ k, k ∈ playedKindsG s'.grid s.curr_player ↔
      (k = p.shape.kind ∨ k ∈ playedKindsG s.grid s.curr_player) := by
    intro k
    rw [mem_playedKindsG, mem_playedKindsG, mem_grid_iff_cellAtN, mem_grid_iff_cellAtN, hgrid]
    constructor
    · intro hc
      rcases CellIn_writeCells_elim sqs s.grid hc with hc | hc
      · exact Or.inl (by rw [hw] at hc; exact congrArg Prod.snd hc)
      · exact Or.inr hc
    · rintro (hc | hc)
      · subst hc
        exact CellIn_writeCells_self sqs s.grid hne hemptyN hrange
      · exact CellIn_writeCells_mono sqs s.grid
          (fun q hq => Or.inl (hemptyN q hq)) hc
  have hfilter : remaining_shapes s' s.curr_player =
      (remaining_shapes s s.curr_player).filter (fun k => decide (k ≠ p.shape.kind)) := by
    unfold remaining_shapes
    rw [List.filter_filter]
    apply List.filter_congr
    intro k _
    have hiff := hkey k
    by_cases h1 : k ∈ playedKindsG s.grid s.curr_player
    · have hmem := hiff.mpr (Or.inr h1)
      simp [h1, hmem]
    · by_cases h2 : k = p.shape.kind
      · have hmem := hiff.mpr (Or.inl h2)
        subst h2
        simp [hmem]
      · have hmem : k ∉ playedKindsG s'.grid s.curr_player := by
          rw [hiff]
          rintro (h3 | h3)
          · exact h2 h3
          · exact h1 h3
        simp [h1, h2, hmem]
  refine ⟨hk, hfilter, ?_⟩
  rw [hfilter]
  have hnodup : (remaining_shapes s s.curr_player).Nodup := shapesList_nodup.filter _
  have herase : (remaining_shapes s s.curr_player).filter (fun k => decide (k ≠ p.shape.kind)) =
      (remaining_shapes s s.curr_player).erase p.shape.kind := by
    rw [hnodup.erase_eq_filter]
    apply List.filter_congr
    intro k _
    rw [Bool.eq_iff_iff]
    simp [bne]
  rw [herase, List.length_erase_of_mem hk]
  have : 0 < (remaining_shapes s s.curr_player).length := List.length_pos_of_mem hk
  omega


theorem maybe_place_false_frame {s : Blokus} {p : Piece} {s' : Blokus}
    (h : maybe_place s p = .ok (false, s')) : s' = s := by
  unfold maybe_place at h
  split at h
  · injection h with h1
    injection h1 with _ h2
    exact h2.symm
  · split at h
    · exact absurd h (by simp)
    · injection h with h1
      injection h1 with _ h2
      exact h2.symm
    · split at h
      · exact absurd h (by simp)
      · split at h
        · exact absurd h (by simp)
        · simp at h

theorem remaining_antitone_step {s s' : Blokus} (h : EngineStep s s') (player : Nat)
    (k : ShapeKind) (hm : k ∈ remaining_shapes s' player) : k ∈ remaining_shapes s player := by
  cases h with
  | retireStep => exact hm
  | placeStep p b hp =>
    cases b with
    | false => rw [maybe_place_false_frame hp] at hm; exact hm
    | true =>
      obtain ⟨a, ha, -, hlegal, hgrid, -, -, -, -, -, -⟩ := maybe_place_true_elim hp
      obtain ⟨-, hcol, -⟩ := legal_true_elim ha hlegal
      obtain ⟨-, hempty⟩ := no_collision_elim hcol
      unfold remaining_shapes at hm ⊢
      rw [List.mem_filter] at hm ⊢
      refine ⟨hm.1, ?_⟩
      rw [Bool.not_eq_eq_eq_not, Bool.not_true, decide_eq_false_iff_not] at hm ⊢
      intro hplayed
      apply hm.2
      rw [mem_playedKindsG, mem_grid_iff_cellAtN] at hplayed ⊢
      rw [hgrid]
      exact CellIn_writeCells_mono _ s.grid (fun q hq => Or.inl (hempty q hq)) hplayed

theorem remaining_antitone {s s' : Blokus} (h : Relation.ReflTransGen EngineStep s s')
    (player : Nat) (k : ShapeKind) (hm : k ∈ remaining_shapes s' player) :
    k ∈ remaining_shapes s player := by
  induction h with
  | refl => exact hm
  | tail _ hstep ih => exact ih (remaining_antitone_step hstep _ _ hm)

theorem stepPlayer_mem {num : Nat} (h : 1 ≤ num) (x : Nat) :
    stepPlayer num x ∈ Finset.Icc 1 num := by
  rw [Finset.mem_Icc]
  unfold stepPlayer
  have := Nat.mod_lt x (show 0 < num by omega)
  omega

theorem stepPlayer_iterate {num : Nat} :
    ∀ (k c : Nat), 1 ≤ c → c ≤ num →
      (stepPlayer num)^[k] c = (c - 1 + k) % num + 1 := by
  intro k
  induction k with
  | zero =>
    intro c h1 h2
    simp only [Function.iterate_zero, id_eq]
    rw [Nat.mod_eq_of_lt (by omega)]
    omega
  | succ m ih =>
    intro c h1 h2
    rw [Function.iterate_succ_apply']
    rw [ih c h1 h2]
    unfold stepPlayer
    rw [Nat.mod_add_mod]
    have harg : c - 1 + m + 1 = c - 1 + (m + 1) := by omega
    rw [harg]

theorem stepPlayer_reaches {num c targ : Nat} (hc1 : 1 ≤ c) (hc2 : c ≤ num)
    (ht1 : 1 ≤ targ) (ht2 : targ ≤ num) :
    ∃ k < num, (stepPlayer num)^[k] c = targ := by
  refine ⟨(targ + num - c) % num, Nat.mod_lt _ (by omega), ?_⟩
  rw [stepPlayer_iterate _ c hc1 hc2]
  rw [Nat.add_mod_mod]
  have harg : c - 1 + (targ + num - c) = targ - 1 + num := by omega
  rw [harg, Nat.add_mod_right, Nat.mod_eq_of_lt (by omega)]
  omega

theorem skipLoop_spec {num : Nat} {R : Finset Nat} :
    ∀ (fuel c : Nat), (∃ k < fuel, (stepPlayer num)^[k] c ∉ R) →
      skipLoop num R fuel c ∉ R := by
  intro fuel
  induction fuel with
  | zero => rintro c ⟨k, hk, -⟩; omega
  | succ f ih =>
    rintro c ⟨k, hk, hout⟩
    unfold skipLoop
    split
    · rename_i hin
      apply ih
      cases k with
      | zero => exact absurd hout (by simpa using hin)
      | succ j =>
        refine ⟨j, by omega, ?_⟩
        rw [Function.iterate_succ_apply] at hout
        exact hout
    · rename_i hout2
      exact hout2

theorem skipLoop_mem_Icc {num : Nat} {R : Finset Nat} (hn : 1 ≤ num) :
    ∀ (fuel c : Nat), c ∈ Finset.Icc 1 num → skipLoop num R fuel c ∈ Finset.Icc 1 num := by
  intro fuel
  induction fuel with
  | zero => exact fun c hc => hc
  | succ f ih =>
    intro c hc
    unfold skipLoop
    split
    · exact ih _ (stepPlayer_mem hn c)
    · exact hc

theorem advance_lands_outside {num : Nat} {R : Finset Nat} (hn : 1 ≤ num)
    (hR : R ⊆ Finset.Icc 1 num) (hcard : R.card ≠ num) {c : Nat}
    (hc : c ∈ Finset.Icc 1 num) :
    skipLoop num R num c ∉ R ∧ skipLoop num R num c ∈ Finset.Icc 1 num := by
  have hcard2 : R.card < num := by
    have := Finset.card_le_card hR
    rw [Nat.card_Icc] at this
    omega
  have hex : ∃ targ ∈ Finset.Icc 1 num, targ ∉ R := by
    by_contra hno
    push_neg at hno
    have hsub : Finset.Icc 1 num ⊆ R := fun x hx => hno x hx
    have := Finset.card_le_card hsub
    rw [Nat.card_Icc] at this
    omega
  obtain ⟨targ, htm, htout⟩ := hex
  rw [Finset.mem_Icc] at htm hc
  obtain ⟨k, hk, hkeq⟩ := stepPlayer_reaches hc.1 hc.2 htm.1 htm.2
  refine ⟨skipLoop_spec num c ⟨k, hk, hkeq ▸ htout⟩, skipLoop_mem_Icc hn num c (by rw [Finset.mem_Icc]; exact hc)⟩

theorem playersInv_place {s : Blokus} {p : Piece} {b : Bool} {s' : Blokus}
    (inv : PlayersInv s) (h : maybe_place s p = .ok (b, s')) : PlayersInv s' := by
  obtain ⟨hn, hcurr, hR, hdisj⟩ := inv
  cases b with
  | false => rw [maybe_place_false_frame h]; exact ⟨hn, hcurr, hR, hdisj⟩
  | true =>
    obtain ⟨a, -, -, -, -, -, hnp, -, -, hret, -, hcp⟩ := maybe_place_true_elim h
    refine ⟨by rw [hnp]; exact hn, ?_, by rw [hret, hnp]; exact hR, ?_⟩
    · rw [hcp, hnp]
      split
      · exact (advance_lands_outside hn hR (by assumption) (stepPlayer_mem hn _)).2
      · exact stepPlayer_mem hn _
    · rw [hcp, hret, hnp]
      split
      · exact Or.inl (advance_lands_outside hn hR (by assumption) (stepPlayer_mem hn _)).1
      · rename_i hcard
        push_neg at hcard
        exact Or.inr hcard

theorem retireOp_eq (s : Blokus) :
    retireOp s = { s with
      retired_players := (if s.curr_player ∈ s.retired_players then s.retired_players
        else insert s.curr_player s.retired_players),
      curr_player := (if (if s.curr_player ∈ s.retired_players then s.retired_players
          else insert s.curr_player s.retired_players).card ≠ s.num_players then
            skipLoop s.num_players (if s.curr_player ∈ s.retired_players then s.retired_players
              else insert s.curr_player s.retired_players) s.num_players s.curr_player
          else stepPlayer s.num_players s.curr_player) } := rfl

theorem playersInv_retire {s : Blokus} (inv : PlayersInv s) : PlayersInv (retireOp s) := by
  obtain ⟨hn, hcurr, hR, -⟩ := inv
  rw [retireOp_eq]
  set R2 := (if s.curr_player ∈ s.retired_players then s.retired_players
      else insert s.curr_player s.retired_players) with hR2eq
  have hR2 : R2 ⊆ Finset.Icc 1 s.num_players := by
    rw [hR2eq]
    split
    · exact hR
    · intro x hx
      rcases Finset.mem_insert.mp hx with hx | hx
      · exact hx ▸ hcurr
      · exact hR hx
  by_cases hcard : R2.card ≠ s.num_players
  · rw [if_pos hcard]
    exact ⟨hn, (advance_lands_outside hn hR2 hcard hcurr).2, hR2,
      Or.inl (advance_lands_outside hn hR2 hcard hcurr).1⟩
  · rw [if_neg hcard]
    push_neg at hcard
    exact ⟨hn, stepPlayer_mem hn _, hR2, Or.inr hcard⟩

theorem playersInv_reset {s : Blokus} (inv : PlayersInv s) : PlayersInv (resetOp s) := by
  obtain ⟨hn, -, -, -⟩ := inv
  refine ⟨hn, ?_, ?_, Or.inl ?_⟩
  · rw [Finset.mem_Icc]
    exact ⟨le_refl 1, hn⟩
  · intro x hx
    exact absurd (show x ∈ (∅ : Finset Nat) from hx) (by simp)
  · exact (show (1 : Nat) ∉ (∅ : Finset Nat) from by simp)

theorem reachable_inv {s : Blokus} (h : Reachable s) : PlayersInv s := by
  induction h with
  | init n size starts h1 h2 h3 h4 h5 =>
    refine ⟨h1, ?_, ?_, Or.inl ?_⟩
    · rw [Finset.mem_Icc]
      exact ⟨le_refl 1, h1⟩
    · intro x hx
      exact absurd (show x ∈ (∅ : Finset Nat) from hx) (by simp)
    · exact (show (1 : Nat) ∉ (∅ : Finset Nat) from by simp)
  | place _ hmp ih => exact playersInv_place ih hmp
  | retireStep _ ih => exact playersInv_retire ih
  | resetStep _ ih => exact playersInv_reset ih

theorem countP_disjoint_or {α : Type} (l : List α) (p q : α → Bool)
    (hd : ∀ x ∈ l, ¬(p x = true ∧ q x = true)) :
    l.countP (fun x => p x || q x) = l.countP p + l.countP q := by
  induction l with
  | nil => simp
  | cons a t ih =>
    rw [List.countP_cons, List.countP_cons, List.countP_cons,
      ih (fun x hx => hd x (List.mem_cons_of_mem _ hx))]
    have hda := hd a (List.mem_cons_self _ _)
    by_cases hp : p a = true
    · by_cases hq : q a = true
      · exact absurd ⟨hp, hq⟩ hda
      · simp [hp, hq]
        omega
    · by_cases hq : q a = true
      · simp [hp, hq]
        omega
      · simp [hp, hq]

theorem runTrace_reachable :
    ∀ (ops : List TraceOp) {s s' : Blokus}, Reachable s → runTrace s ops = some s' →
      Reachable s' := by
  intro ops
  induction ops with
  | nil =>
    intro s s' h hr
    injection hr with h1
    exact h1 ▸ h
  | cons op t ih =>
    intro s s' h hr
    cases op with
    | place k a =>
      unfold runTrace at hr
      cases hmp : maybe_place s ⟨catalogShape k, some a⟩ with
      | error e =>
        rw [hmp] at hr
        exact absurd hr (by simp)
      | ok bs =>
        obtain ⟨b, s2⟩ := bs
        rw [hmp] at hr
        cases b with
        | false => simp at hr
        | true => exact ih (Reachable.place h hmp) hr
    | retireMove =>
      unfold runTrace at hr
      exact ih (Reachable.retireStep h) hr

set_option maxRecDepth 100000 in
theorem trace_eval : (runTrace traceInit traceOps).elim false checkFinal = true := by decide

theorem traceFinal_facts :
    Reachable traceFinal ∧ game_over traceFinal = false ∧ traceFinal.curr_player = 2 ∧
      remaining_shapes traceFinal traceFinal.curr_player = [] ∧
      ∀ q, 1 ≤ q → q ≤ traceFinal.num_players →
        q ∈ traceFinal.retired_players ∨ remaining_shapes traceFinal q = [] := by
  have h := trace_eval
  cases hrt : runTrace traceInit traceOps with
  | none =>
    rw [hrt] at h
    exact absurd h (by simp [Option.elim])
  | some sf =>
    have hfin : traceFinal = sf := by
      unfold traceFinal
      rw [hrt]
      rfl
    rw [hrt] at h
    simp only [Option.elim] at h
    unfold checkFinal at h
    rw [Bool.and_eq_true, Bool.and_eq_true, Bool.and_eq_true] at h
    obtain ⟨⟨⟨hgo, hcp⟩, hrem⟩, hall⟩ := h
    rw [Bool.not_eq_true'] at hgo
    rw [decide_eq_true_eq] at hcp hrem
    have hreach : Reachable sf :=
      runTrace_reachable traceOps
        (show Reachable traceInit from
          Reachable.init 3 55 _ (by omega) (by omega) (by omega) (by decide) (by decide)) hrt
    refine ⟨hfin ▸ hreach, hfin ▸ hgo, hfin ▸ hcp, hfin ▸ hrem, ?_⟩
    rw [hfin]
    intro q h1 h2
    rw [List.all_eq_true] at hall
    have hq := hall q (by rw [List.mem_range'_1]; omega)
    rw [Bool.or_eq_true, decide_eq_true_eq, decide_eq_true_eq] at hq
    exact hq

/-- C1 (amended): for every reachable state in which the game is not over,
the current player is not retired.  (The original claim also asserted that
the current player's remaining inventory is non-empty; that part is refuted
by `C1_exhausted_pointer_counterexample`: the turn-advancement loops of
`maybe_place` and `retire` skip only retired players, never exhausted
ones.) -/
theorem C1_curr_player_not_retired (s : Blokus) (h : Reachable s)
    (hgo : game_over s = false) : s.curr_player ∉ s.retired_players := by
  obtain ⟨-, -, -, hdisj⟩ := reachable_inv h
  rcases hdisj with h1 | h1
  · exact h1
  · exfalso
    unfold game_over at hgo
    rw [if_pos h1] at hgo
    exact absurd hgo (by simp)

/-- C1 witness: the freshly constructed 1-player game is reachable, not over,
and its current player is not retired. -/
theorem C1_curr_player_not_retired_witness :
    game_over w1Init = false ∧ w1Init.curr_player ∉ w1Init.retired_players :=
  ⟨by decide, C1_curr_player_not_retired w1Init
    (show Reachable w1Init from
      Reachable.init 1 5 _ (by omega) (by omega) (by omega) (by decide) (by decide))
    (by decide)⟩

/-- C1 counterexample: a reachable state (player 3 retires, players 1 and 2
legally place all 21 shapes each, then player 1 retires) in which the game is
not over yet the current player's remaining inventory is empty — refuting the
claim that the pointer always identifies a player with a non-empty
inventory. -/
theorem C1_exhausted_pointer_counterexample :
    Reachable traceFinal ∧ game_over traceFinal = false ∧
      remaining_shapes traceFinal traceFinal.curr_player = [] :=
  ⟨traceFinal_facts.1, traceFinal_facts.2.1, traceFinal_facts.2.2.2.1⟩

/-- C2: evaluation of `get_score` at the failing input.  Player 1's inventory
is empty and their most recently placed piece is `TWO`, so the claim (and the
design document) require a score of 15; the code returns 20, because its
backward scan does not stop at the most recent piece of the player — it keeps
scanning and finds the stale `(1, ONE)` entry.  (`spec_get_score` is the
scoring function as the claim words it.) -/
theorem C2_score_bonus_code_eval :
    remaining_shapes c2State 1 = [] ∧
    lastOwnKind c2State.played_pieces 1 = some ShapeKind.TWO ∧
    get_score c2State 1 = 20 ∧ spec_get_score c2State 1 = 15 := by decide

/-- C3 (amended): for every reachable state in which no retired player has an
empty inventory, `game_over` is true exactly when every player is retired or
fully exhausted.  (The original unconditional claim is refuted by
`C3_game_over_counterexample`: `done + len(retired_players)` double-counts a
player that is both retired and exhausted.) -/
theorem C3_game_over_iff_no_overlap (s : Blokus) (h : Reachable s)
    (hsep : ∀ r ∈ s.retired_players, remaining_shapes s r ≠ []) :
    game_over s = true ↔
      ∀ q, 1 ≤ q → q ≤ s.num_players →
        q ∈ s.retired_players ∨ remaining_shapes s q = [] := by
  obtain ⟨hn, hcurr, hR, hdisj⟩ := reachable_inv h
  unfold game_over
  by_cases hcard : s.retired_players.card = s.num_players
  · rw [if_pos hcard]
    have hEq : s.retired_players = Finset.Icc 1 s.num_players :=
      Finset.eq_of_subset_of_card_le hR (by rw [Nat.card_Icc]; omega)
    constructor
    · intro _ q h1 h2
      exact Or.inl (by rw [hEq, Finset.mem_Icc]; exact ⟨h1, h2⟩)
    · intro _
      rfl
  · rw [if_neg hcard]
    have hcd : s.curr_player ∉ s.retired_players := hdisj.resolve_right hcard
    have hgen : (decide
        ((List.range' 1 s.num_players).countP
            (fun q => decide ((remaining_shapes s q).length = 0)) + s.retired_players.card =
          s.num_players) = true) ↔
        (∀ q, 1 ≤ q → q ≤ s.num_players →
          q ∈ s.retired_players ∨ remaining_shapes s q = []) := by
      rw [decide_eq_true_eq]
      have hsplit := countP_disjoint_or (List.range' 1 s.num_players)
        (fun q => decide ((remaining_shapes s q).length = 0))
        (fun q => decide (q ∈ s.retired_players))
        (by
          intro x _ hx
          rw [decide_eq_true_eq, decide_eq_true_eq] at hx
          exact hsep x hx.2 (List.length_eq_zero.mp hx.1))
      have hrc := countP_mem_finset_card hR
      have hsplit2 : (List.range' 1 s.num_players).countP
          (fun q => decide ((remaining_shapes s q).length = 0) ||
            decide (q ∈ s.retired_players)) =
          (List.range' 1 s.num_players).countP
            (fun q => decide ((remaining_shapes s q).length = 0)) +
          (List.range' 1 s.num_players).countP
            (fun q => decide (q ∈ s.retired_players)) := hsplit
      constructor
      · intro hsum
        have hall : (List.range' 1 s.num_players).countP
            (fun q => decide ((remaining_shapes s q).length = 0) ||
              decide (q ∈ s.retired_players)) = s.num_players := by omega
        have hlen : (List.range' 1 s.num_players).countP
            (fun q => decide ((remaining_shapes s q).length = 0) ||
              decide (q ∈ s.retired_players)) = (List.range' 1 s.num_players).length := by
          rw [hall, List.length_range']
        have hmem := List.countP_eq_length.mp hlen
        intro q h1 h2
        have hq := hmem q (by rw [List.mem_range'_1]; omega)
        rw [Bool.or_eq_true, decide_eq_true_eq, decide_eq_true_eq] at hq
        rcases hq with hq | hq
        · exact Or.inr (List.length_eq_zero.mp hq)
        · exact Or.inl hq
      · intro hall
        have hmem : ∀ q ∈ List.range' 1 s.num_players,
            (decide ((remaining_shapes s q).length = 0) ||
              decide (q ∈ s.retired_players)) = true := by
          intro q hq
          rw [List.mem_range'_1] at hq
          rcases hall q hq.1 (by omega) with hx | hx
          · simp [hx]
          · simp [hx]
        have hlen := List.countP_eq_length.mpr hmem
        rw [List.length_range'] at hlen
        omega
    by_cases hsp : s.retired_players.card = 1 ∧ s.num_players = 2 ∧
        (remaining_shapes s s.curr_player).length = 0
    · rw [if_pos hsp]
      obtain ⟨hc1, hn2, hrem⟩ := hsp
      obtain ⟨r, hrEq⟩ := Finset.card_eq_one.mp hc1
      have hrIcc : r ∈ Finset.Icc 1 s.num_players :=
        hR (by rw [hrEq]; exact Finset.mem_singleton_self r)
      rw [Finset.mem_Icc] at hrIcc hcurr
      have hner : s.curr_player ≠ r := by
        intro heq
        exact hcd (by rw [hrEq, heq]; exact Finset.mem_singleton_self r)
      constructor
      · intro _ q h1 h2
        have hqcases : q = s.curr_player ∨ q = r := by omega
        rcases hqcases with hq | hq
        · exact Or.inr (by rw [hq]; exact List.length_eq_zero.mp hrem)
        · exact Or.inl (by rw [hq, hrEq]; exact Finset.mem_singleton_self r)
      · intro _
        rfl
    · rw [if_neg hsp]
      exact hgen

/-- C3 witness: the theorem applied to the fresh 1-player game (both sides of
the equivalence are false there). -/
theorem C3_game_over_iff_no_overlap_witness :
    (∀ r ∈ w1Init.retired_players, remaining_shapes w1Init r ≠ []) ∧
    (game_over w1Init = true ↔
      ∀ q, 1 ≤ q → q ≤ w1Init.num_players →
        q ∈ w1Init.retired_players ∨ remaining_shapes w1Init q = []) :=
  ⟨by decide, C3_game_over_iff_no_overlap w1Init
    (show Reachable w1Init from
      Reachable.init 1 5 _ (by omega) (by omega) (by omega) (by decide) (by decide))
    (by decide)⟩

/-- C3 counterexample: in the reachable state `traceFinal`, every player is
retired or fully exhausted (player 1 is both), yet `game_over` is false —
refuting the claimed equivalence. -/
theorem C3_game_over_counterexample :
    Reachable traceFinal ∧
      (∀ q, 1 ≤ q → q ≤ traceFinal.num_players →
        q ∈ traceFinal.retired_players ∨ remaining_shapes traceFinal q = []) ∧
      game_over traceFinal = false :=
  ⟨traceFinal_facts.1, traceFinal_facts.2.2.2.2, traceFinal_facts.2.1⟩

/-- C4: for an anchored, collision-free candidate piece whose kind is still in
the current player's inventory, while the total successful-move count is
smaller than the number of players that have not yet moved and are not
retired (`spec_playersNotMovedNotRetired`, the claim's own condition — it
implies the code's `num_moves < num_players - len(retired_players)`),
`legal_to_place` returns true exactly when some square of the piece covers a
declared start position; no adjacency requirement is applied.  The
`retired_players ⊆ {1..num_players}` hypothesis is an engine well-formedness
property that holds in every reachable state (`reachable_inv`). -/
theorem C4_opening_move_rule (s : Blokus) (p : Piece) (a : Point)
    (hret : s.retired_players ⊆ Finset.Icc 1 s.num_players)
    (ha : p.anchor = some a)
    (hk : p.shape.kind ∈ remaining_shapes s s.curr_player)
    (hcol : any_collisions s (squaresAt p.shape a) = false)
    (hopen : s.num_moves < spec_playersNotMovedNotRetired s) :
    legal_to_place s p =
      .ok ((squaresAt p.shape a).any (fun q => decide (q ∈ s.start_positions))) ∧
    (legal_to_place s p = .ok true ↔ ∃ q ∈ squaresAt p.shape a, q ∈ s.start_positions) := by
  have hcode : s.num_moves < s.num_players - s.retired_players.card := by
    have h1 : spec_playersNotMovedNotRetired s ≤
        (List.range' 1 s.num_players).countP (fun q => !decide (q ∈ s.retired_players)) := by
      unfold spec_playersNotMovedNotRetired
      apply List.countP_mono_left
      intro x _ hx
      simp only [Bool.and_eq_true] at hx
      exact hx.2
    have h2 := notRetired_countP hret
    omega
  obtain ⟨sh, anc⟩ := p
  simp only [Option.some.injEq] at ha
  subst ha
  have hmain : legal_to_place s ⟨sh, some a⟩ =
      .ok ((squaresAt sh a).any (fun q => decide (q ∈ s.start_positions))) := by
    simp only [legal_to_place]
    rw [if_neg (by simpa using hk)]
    rw [if_neg (by simp [hcol]), if_pos hcode]
  refine ⟨hmain, ?_⟩
  rw [hmain]
  simp only [Except.ok.injEq, List.any_eq_true, decide_eq_true_eq]

/-- C4 witness: in the fresh 4-player game (0 moves, 4 players not moved and
not retired) the opening piece covering start `(0, 0)` is judged exactly by
start-position coverage. -/
theorem C4_opening_move_rule_witness :
    c4State.num_moves < spec_playersNotMovedNotRetired c4State ∧
    legal_to_place c4State c4Piece =
      .ok ((squaresAt c4Piece.shape ((0 : Int), (0 : Int))).any
        (fun q => decide (q ∈ c4State.start_positions))) :=
  ⟨by decide, (C4_opening_move_rule c4State c4Piece ((0 : Int), (0 : Int))
    (by decide) (by decide) (by decide) (by decide) (by decide)).1⟩

/-- C5: after the opening phase, an anchored, collision-free candidate piece
whose kind is still in the inventory is illegal whenever some in-bounds
cardinal neighbor cell of the piece is occupied by the current player;
otherwise it is legal exactly when some in-bounds intercardinal neighbor cell
is occupied by the current player. -/
theorem C5_subsequent_move_rule (s : Blokus) (p : Piece) (a : Point)
    (ha : p.anchor = some a)
    (hk : p.shape.kind ∈ remaining_shapes s s.curr_player)
    (hcol : any_collisions s (squaresAt p.shape a) = false)
    (hphase : ¬ (s.num_moves < s.num_players - s.retired_players.card)) :
    ((∃ q ∈ cardinal_neighbors (squaresAt p.shape a),
        inb s q.1 q.2 = true ∧ ownCell s s.curr_player q.1 q.2 = true) →
      legal_to_place s p = .ok false) ∧
    ((¬ ∃ q ∈ cardinal_neighbors (squaresAt p.shape a),
        inb s q.1 q.2 = true ∧ ownCell s s.curr_player q.1 q.2 = true) →
      (legal_to_place s p = .ok true ↔
        ∃ q ∈ intercardinal_neighbors (squaresAt p.shape a),
          inb s q.1 q.2 = true ∧ ownCell s s.curr_player q.1 q.2 = true)) := by
  obtain ⟨sh, anc⟩ := p
  simp only [Option.some.injEq] at ha
  subst ha
  have hred : legal_to_place s ⟨sh, some a⟩ =
      if (cardinal_neighbors (squaresAt sh a)).any
          (fun q => inb s q.1 q.2 && ownCell s s.curr_player q.1 q.2) then .ok false
      else .ok ((intercardinal_neighbors (squaresAt sh a)).any
          (fun q => inb s q.1 q.2 && ownCell s s.curr_player q.1 q.2)) := by
    simp only [legal_to_place]
    rw [if_neg (by simpa using hk), if_neg (by simp [hcol]), if_neg hphase]
  constructor
  · rintro ⟨q, hq, h1, h2⟩
    rw [hred, if_pos]
    rw [List.any_eq_true]
    exact ⟨q, hq, by simp [h1, h2]⟩
  · intro hnex
    have hcard : (cardinal_neighbors (squaresAt sh a)).any
        (fun q => inb s q.1 q.2 && ownCell s s.curr_player q.1 q.2) = false := by
      rw [← Bool.not_eq_true, List.any_eq_true]
      rintro ⟨q, hq, hb⟩
      rw [Bool.and_eq_true] at hb
      exact hnex ⟨q, hq, hb.1, hb.2⟩
    rw [hred, if_neg (by simp [hcard])]
    simp only [Except.ok.injEq, List.any_eq_true, Bool.and_eq_true]

/-- C5 witness: after player 1's opening square at `(0, 0)`, the domino
anchored at `(1, 1)` touches it only diagonally, so the theorem's
intercardinal equivalence makes it legal. -/
theorem C5_subsequent_move_rule_witness : legal_to_place c5State c5Piece = .ok true := by
  have h := C5_subsequent_move_rule c5State c5Piece ((1 : Int), (1 : Int))
    (by decide) (by decide) (by decide) (by decide)
  exact (h.2 (by decide)).mpr (by decide)

/-- C6: whenever `maybe_place` returns false — the current player being
retired, or the move being illegal — the returned state is exactly the input
state: the grid, turn pointer, move counter, retired set, placement history
and (grid-derived) inventories are all unchanged. -/
theorem C6_failed_place_frame (s : Blokus) (p : Piece) (s' : Blokus)
    (h : maybe_place s p = .ok (false, s')) : s' = s :=
  maybe_place_false_frame h

/-- C6 witness: the opening piece at `(2, 2)` covers no start position, so
`maybe_place` fails and returns the state unchanged. -/
theorem C6_failed_place_frame_witness :
    maybe_place w1Init c6Piece = .ok (false, w1Init) ∧ w1Init = w1Init :=
  ⟨by decide, C6_failed_place_frame w1Init c6Piece w1Init (by decide)⟩

/-- C7: for every shape, four consecutive `rotate_right` applications, four
consecutive `rotate_left` applications, and two consecutive
`flip_horizontally` applications each reproduce the original offset list
exactly (hence also as a multiset); for non-transformable shapes each
operation is the identity, so the round trips hold trivially. -/
theorem C7_transform_round_trips (sh : Shape) :
    (sh.rotate_right.rotate_right.rotate_right.rotate_right).squares = sh.squares ∧
    (sh.rotate_left.rotate_left.rotate_left.rotate_left).squares = sh.squares ∧
    (sh.flip_horizontally.flip_horizontally).squares = sh.squares := by
  obtain ⟨k, o, t, sqs⟩ := sh
  cases t with
  | false => simp [Shape.rotate_right, Shape.rotate_left, Shape.flip_horizontally]
  | true =>
    refine ⟨?_, ?_, ?_⟩ <;>
      simp [Shape.rotate_right, Shape.rotate_left, Shape.flip_horizontally] <;>
      · induction sqs with
        | nil => rfl
        | cons a t2 ih => simp_all

/-- C8: `legal_to_place` raises `AlreadyPlayedShape` exactly when the piece's
kind is not in the current player's remaining inventory (checked first),
raises `NoAnchorSet` exactly when the kind is available but the anchor is
unset (checked second), and in every other situation — wall collisions,
overlaps, adjacency violations, missed start positions — returns a boolean
rather than an error. -/
theorem C8_error_contract (s : Blokus) (p : Piece) :
    (legal_to_place s p = .error .alreadyPlayedShape ↔
      p.shape.kind ∉ remaining_shapes s s.curr_player) ∧
    (legal_to_place s p = .error .noAnchorSet ↔
      (p.shape.kind ∈ remaining_shapes s s.curr_player ∧ p.anchor = none)) ∧
    (p.shape.kind ∈ remaining_shapes s s.curr_player → p.anchor ≠ none →
      ∃ b, legal_to_place s p = .ok b) := by
  obtain ⟨sh, anc⟩ := p
  by_cases hk : sh.kind ∈ remaining_shapes s s.curr_player
  · cases anc with
    | none => simp [legal_to_place, hk]
    | some a =>
      have hbody : ∃ b, legal_to_place s ⟨sh, some a⟩ = .ok b := by
        simp only [legal_to_place]
        rw [if_neg (by simpa using hk)]
        split
        · exact ⟨_, rfl⟩
        · split
          · exact ⟨_, rfl⟩
          · split
            · exact ⟨_, rfl⟩
            · exact ⟨_, rfl⟩
      obtain ⟨b, hb⟩ := hbody
      refine ⟨?_, ?_, fun _ _ => ⟨b, hb⟩⟩
      · rw [hb]
        simp [hk]
      · rw [hb]
        simp
  · simp [legal_to_place, hk]

/-- C9 (amended): a successful `maybe_place` removes exactly the placed kind
from the placer's remaining inventory (which therefore shrinks by exactly one
kind), and across any sequence of `maybe_place` and `retire` operations —
`reset` excluded, since `reset` clears the board and thereby restores the
full inventory (see `C9_reset_regain_counterexample`) — no player's remaining
inventory ever regains a kind. -/
theorem C9_inventory_monotone :
    (∀ (s : Blokus) (p : Piece) (s' : Blokus), GridWF s → maybe_place s p = .ok (true, s') →
      p.shape.kind ∈ remaining_shapes s s.curr_player ∧
      remaining_shapes s' s.curr_player =
        (remaining_shapes s s.curr_player).filter (fun k => decide (k ≠ p.shape.kind)) ∧
      (remaining_shapes s' s.curr_player).length + 1 =
        (remaining_shapes s s.curr_player).length) ∧
    (∀ (s s' : Blokus), Relation.ReflTransGen EngineStep s s' →
      ∀ (player : Nat) (k : ShapeKind),
        k ∈ remaining_shapes s' player → k ∈ remaining_shapes s player) :=
  ⟨fun _ _ _ hwf h => placed_remaining hwf h,
   fun _ _ h player k hm => remaining_antitone h player k hm⟩

/-- C9 witness: placing the single-square shape removes exactly that kind
from player 1's inventory. -/
theorem C9_inventory_monotone_witness :
    GridWF w1Init ∧ maybe_place w1Init c9Piece = .ok (true, c9After) ∧
      (c9Piece.shape.kind ∈ remaining_shapes w1Init w1Init.curr_player ∧
       remaining_shapes c9After w1Init.curr_player =
         (remaining_shapes w1Init w1Init.curr_player).filter
           (fun k => decide (k ≠ c9Piece.shape.kind)) ∧
       (remaining_shapes c9After w1Init.curr_player).length + 1 =
         (remaining_shapes w1Init w1Init.curr_player).length) :=
  ⟨⟨by decide, by decide⟩, by decide,
    C9_inventory_monotone.1 w1Init c9Piece c9After ⟨by decide, by decide⟩ (by decide)⟩

/-- C9 counterexample: `reset` is an engine operation after which a lost kind
is regained — player 1 places `ONE` (losing it), and after `reset` the kind
is back in `remaining_shapes`, refuting the claim over sequences that include
`reset`. -/
theorem C9_reset_regain_counterexample :
    maybe_place w1Init c9Piece = .ok (true, c9After) ∧
    ShapeKind.ONE ∉ remaining_shapes c9After 1 ∧
    ShapeKind.ONE ∈ remaining_shapes (resetOp c9After) 1 := by decide

/-- C10: `reset` restores the grid to all-empty, sets the current player to
1, zeroes the move counter and empties the retired set, while leaving every
other field — in particular the placement history — unchanged; consequently
the backward bonus scan of `get_score` reads exactly the same history before
and after a reset. -/
theorem C10_reset_frame (s : Blokus) :
    resetOp s = { s with grid := mkGrid s.size, curr_player := 1, num_moves := 0,
                         retired_players := ∅ } ∧
    (resetOp s).played_pieces = s.played_pieces ∧
    ∀ q, scoreBonusScan (resetOp s).played_pieces q = scoreBonusScan s.played_pieces q :=
  ⟨rfl, rfl, fun _ => rfl⟩

/-- `definitions[kind]` succeeds for all 21 kinds. -/
theorem defLookup_total (k : ShapeKind) : defLookup k = some ((defLookup k).getD "") := by
  cases k <;> rfl

theorem stripLen_eq_squares (k : ShapeKind) :
    stripLen ((defLookup k).getD "") = (catalogShape k).squares.length := by
  cases k <;> rfl

theorem score_foldl (l : List ShapeKind) : ∀ init : Int,
    l.foldl (fun sc k =>
      match defLookup k with
      | some d => sc - (stripLen d : Int)
      | none => sc) init =
      init - (l.map (fun k => (stripLen ((defLookup k).getD "") : Int))).sum := by
  induction l with
  | nil => simp
  | cons a t ih =>
    intro init
    have hf : (match defLookup a with
        | some d => init - (stripLen d : Int)
        | none => init) = init - (stripLen ((defLookup a).getD "") : Int) := by
      conv_lhs => rw [defLookup_total a]
    rw [List.foldl_cons, hf, ih, List.map_cons, List.sum_cons]
    omega

theorem get_score_nonempty_matches_spec (s : Blokus) (player : Nat)
    (h : remaining_shapes s player ≠ []) :
    get_score s player = spec_get_score s player ∧
    get_score s player =
      -(((remaining_shapes s player).map
        (fun k => ((catalogShape k).squares.length : Int))).sum) := by
  have hlen : (remaining_shapes s player).length ≠ 0 := by
    intro hl
    exact h (List.length_eq_zero.mp hl)
  have hmap : (remaining_shapes s player).map
      (fun k => (stripLen ((defLookup k).getD "") : Int)) =
      (remaining_shapes s player).map
        (fun k => ((catalogShape k).squares.length : Int)) := by
    apply List.map_congr_left
    intro k _
    rw [stripLen_eq_squares]
  have hg : get_score s player =
      -(((remaining_shapes s player).map
        (fun k => ((catalogShape k).squares.length : Int))).sum) := by
    unfold get_score
    rw [if_pos hlen, score_foldl, hmap]
    omega
  refine ⟨?_, hg⟩
  unfold spec_get_score
  rw [if_pos h, hg]
